import Mathlib

/-!
Verification of the consistent-hashing ring subsystem of the
go-pantheon/fabrica-util repository (package consistenthash).

Two ring variants are embedded:
* HashRing -- the string-keyed ring
* Int64HashRing -- the int64-keyed ring

The hash provider (murmur3 via the hash.Hash / hash.Hash64 interfaces) is an
external collaborator.  It is modelled as an abstract Hasher: a deterministic
64-bit digest function over strings together with a possible write error
(hash.Hash.Write returns an error).  The 8-byte serialisation produced by
Sum(nil) of the 64-bit murmur3 digest (spaolacci/murmur3 v1.1.0, digest64.Sum)
appends the digest bytes most-significant first; this big-endian layout is
embedded explicitly in sum64Bytes, because the string-keyed ring truncates the
digest by reading the last four bytes of that serialisation.
-/

namespace Consistenthash

/-- Abstract model of the pooled hash provider (reset-write-sum lifecycle).
`digest s` is the 64-bit digest obtained by resetting the hasher, writing the
bytes of `s` and taking the sum; `writeErr s` is the error returned by the
`Write` call for `s`, when the provider fails on that input. -/
structure Hasher where
  digest : String → Nat
  writeErr : String → Option String

/-- Result of `hasher.Write([]byte(s))` followed by taking the digest:
an error when the provider reports one, otherwise the 64-bit digest. -/
def Hasher.write (H : Hasher) (s : String) : Except String Nat :=
  match H.writeErr s with
  | some e => Except.error e
  | none => Except.ok (H.digest s)

/-- The 8-byte serialisation `hash.Sum(nil)` of a 64-bit digest, as produced by
spaolacci/murmur3 v1.1.0 `digest64.Sum`: bytes appended most-significant
first, `byte(h>>56), byte(h>>48), ..., byte(h)` (each `byte` cast keeps the
low 8 bits). -/
def sum64Bytes (d : Nat) : List Nat :=
  [d >>> 56 % 256, d >>> 48 % 256, d >>> 40 % 256, d >>> 32 % 256,
   d >>> 24 % 256, d >>> 16 % 256, d >>> 8 % 256, d % 256]

/-- The slice expression `hashBytes[len(hashBytes)-4:]`: the last four bytes. -/
def lastFour (bs : List Nat) : List Nat := bs.drop (bs.length - 4)

/-- `binary.BigEndian.Uint32(b)`: the value
`uint32(b[3]) | uint32(b[2])<<8 | uint32(b[1])<<16 | uint32(b[0])<<24`.
Written additively, which coincides with the bitwise-or form because the
bytes occupy disjoint bit ranges (each byte value is below 256). -/
def beUint32 (bs : List Nat) : Nat :=
  match bs with
  | b0 :: b1 :: b2 :: b3 :: _ => b3 + b2 * 2 ^ 8 + b1 * 2 ^ 16 + b0 * 2 ^ 24
  | _ => 0

/-- The 32-bit ring position the string-keyed ring derives from a 64-bit
digest: `binary.BigEndian.Uint32(hashBytes[len(hashBytes)-4:])`. -/
def stringPosition (d : Nat) : Nat := beUint32 (lastFour (sum64Bytes d))

/-- One virtual node of the string-keyed ring (`ringNode`). -/
structure ringNode where
  nodeName : String
  key : String
  hash : Nat
deriving DecidableEq, Repr, Inhabited

/-- The comparison `ringNodes.Less` used by `sort.Sort`: order by `hash`. -/
def nodeLE (a b : ringNode) : Prop := a.hash ≤ b.hash

instance : DecidableRel nodeLE := fun a b => Nat.decLe a.hash b.hash

instance : IsTotal ringNode nodeLE := ⟨fun a b => Nat.le_total a.hash b.hash⟩

instance : IsTrans ringNode nodeLE := ⟨fun _ _ _ => Nat.le_trans⟩

/-- The string-keyed ring (`HashRing`).  The mutex and the hash-instance pool
are not part of the observable state; the pooled hasher is passed explicitly
to the operations that use it. -/
structure HashRing where
  virtualSpots : Nat
  nodes : List ringNode
deriving DecidableEq, Repr

/-- `NewRing(virtualSpots)`: a non-positive spot count falls back to
`DefaultVirtualSpots = 160`. -/
def NewRing (virtualSpots : Int) : HashRing :=
  { virtualSpots := if virtualSpots ≤ 0 then 160 else virtualSpots.toNat,
    nodes := [] }

/-- The generation loop of `HashRing.AddNode`: for each replica index `i` in
the given list, build the key `nodeName + ":" + i`, write it to the hasher
(aborting the whole generation on a write error) and record a `ringNode`
whose position is the big-endian reading of the last four digest bytes. -/
def genNodes (H : Hasher) (nodeName : String) : List Nat → Except String (List ringNode)
  | [] => Except.ok []
  | i :: rest =>
    let key := nodeName ++ ":" ++ toString i
    match H.write key with
    | Except.error e => Except.error ("write to hasher failed: " ++ e)
    | Except.ok d =>
      match genNodes H nodeName rest with
      | Except.error e => Except.error e
      | Except.ok ns =>
        Except.ok ({ nodeName := nodeName, key := key,
                     hash := beUint32 (lastFour (sum64Bytes d)) } :: ns)

/-- `HashRing.AddNode(nodeName)`: generate `virtualSpots` virtual nodes into a
temporary buffer; on a write error return the error with the ring unchanged;
on success append the buffer and re-sort ascending by position (`sort.Sort`
with the `ringNodes.Less` order, modelled by insertion sort). -/
def HashRing.AddNode (H : Hasher) (h : HashRing) (nodeName : String) :
    Except String Unit × HashRing :=
  match genNodes H nodeName (List.range h.virtualSpots) with
  | Except.error e => (Except.error e, h)
  | Except.ok nodes =>
    (Except.ok (), { h with nodes := List.insertionSort nodeLE (h.nodes ++ nodes) })

/-- `HashRing.RemoveNode(nodeName)`: filter the sequence in place, keeping
exactly the nodes whose owner differs from `nodeName` (the
`filtered = h.nodes[:0]; for ... append` loop). -/
def HashRing.RemoveNode (h : HashRing) (nodeName : String) : HashRing :=
  { h with
    nodes := h.nodes.foldl
      (fun filtered n => if n.nodeName ≠ nodeName then filtered ++ [n] else filtered) [] }

/-- The loop of Go's `sort.Search(n, f)` with explicit fuel; each iteration
shrinks `j - i`, so fuel `j - i` suffices.  `i, j := 0, n`; while `i < j`,
probe `h := (i+j)/2` and set `i = h+1` when `f h` is false, `j = h`
otherwise; return `i`. -/
def sortSearchGo (f : Nat → Bool) : Nat → Nat → Nat → Nat
  | 0, i, _ => i
  | fuel + 1, i, j =>
    if i < j then
      let m := (i + j) / 2
      if !f m then sortSearchGo f fuel (m + 1) j else sortSearchGo f fuel i m
    else i

/-- `sort.Search(n, f)`. -/
def sortSearch (f : Nat → Bool) (n : Nat) : Nat := sortSearchGo f n 0 n

/-- The search target of `HashRing.GetNode`: the lookup key is hashed through
the provider and truncated to 32 bits exactly as virtual-node generation
truncates (big-endian reading of the last four digest bytes). -/
def stringTarget (H : Hasher) (key : String) : Nat :=
  beUint32 (lastFour (sum64Bytes (H.digest key)))

/-- `HashRing.GetNode(key)`: on an empty ring return `("", false)`; otherwise
hash the key, truncate to 32 bits exactly as virtual-node generation does,
binary-search for the first position at or above the target, wrapping to
index 0 when the search falls off the end.  The ring state is returned
unchanged alongside the result. -/
def HashRing.GetNode (H : Hasher) (h : HashRing) (key : String) :
    (String × Bool) × HashRing :=
  if h.nodes.length = 0 then (("", false), h)
  else
    let targetHash := stringTarget H key
    let idx := sortSearch (fun i => (h.nodes.getD i default).hash ≥ targetHash)
      h.nodes.length
    let idx2 := if idx = h.nodes.length then 0 else idx
    (((h.nodes.getD idx2 default).nodeName, true), h)

/-- `HashRing.Len()`, with the (unchanged) ring state it leaves behind. -/
def HashRing.Len (h : HashRing) : Nat × HashRing := (h.nodes.length, h)

/-- `int64.MaxInt64 = 2^63 - 1`. -/
def maxInt64 : Nat := 2 ^ 63 - 1

/-- `convertToInt64(val uint64) int64`: clamp values above `MaxInt64`. -/
def convertToInt64 (val : Nat) : Int :=
  if val > maxInt64 then (maxInt64 : Int) else (val : Int)

/-- One virtual node of the int64-keyed ring (`int64RingNode`). -/
structure int64RingNode where
  nodeName : String
  key : Int
  hash : Nat
deriving DecidableEq, Repr, Inhabited

/-- The comparison `int64RingNodes.Less`: order by the 64-bit `hash`. -/
def int64NodeLE (a b : int64RingNode) : Prop := a.hash ≤ b.hash

instance : DecidableRel int64NodeLE := fun a b => Nat.decLe a.hash b.hash

instance : IsTotal int64RingNode int64NodeLE := ⟨fun a b => Nat.le_total a.hash b.hash⟩

instance : IsTrans int64RingNode int64NodeLE := ⟨fun _ _ _ => Nat.le_trans⟩

/-- The int64-keyed ring (`Int64HashRing`); as for `HashRing`, mutex and
hasher pool are not observable state. -/
structure Int64HashRing where
  virtualSpots : Nat
  nodes : List int64RingNode
deriving DecidableEq, Repr

/-- `NewInt64Ring(virtualSpots)`: non-positive spot counts fall back to the
default of 160. -/
def NewInt64Ring (virtualSpots : Int) : Int64HashRing :=
  { virtualSpots := if virtualSpots ≤ 0 then 160 else virtualSpots.toNat,
    nodes := [] }

/-- The generation loop of `Int64HashRing.AddNode`: for each replica index,
hash `nodeName + ":" + i` (aborting on a write error) and record an
`int64RingNode` carrying the full 64-bit digest as its position. -/
def int64GenNodes (H : Hasher) (nodeName : String) :
    List Nat → Except String (List int64RingNode)
  | [] => Except.ok []
  | i :: rest =>
    let keyStr := nodeName ++ ":" ++ toString i
    match H.write keyStr with
    | Except.error e => Except.error ("write to hasher failed: " ++ e)
    | Except.ok hash64 =>
      match int64GenNodes H nodeName rest with
      | Except.error e => Except.error e
      | Except.ok ns =>
        Except.ok ({ nodeName := nodeName, key := convertToInt64 hash64,
                     hash := hash64 } :: ns)

/-- `Int64HashRing.AddNode(nodeName)`: generate into a buffer, abort on error
with the ring unchanged, otherwise append and re-sort by hash. -/
def Int64HashRing.AddNode (H : Hasher) (h : Int64HashRing) (nodeName : String) :
    Except String Unit × Int64HashRing :=
  match int64GenNodes H nodeName (List.range h.virtualSpots) with
  | Except.error e => (Except.error e, h)
  | Except.ok nodes =>
    (Except.ok (),
     { h with nodes := List.insertionSort int64NodeLE (h.nodes ++ nodes) })

/-- `Int64HashRing.RemoveNode(nodeName)`: the same in-place filter loop as the
string-keyed ring. -/
def Int64HashRing.RemoveNode (h : Int64HashRing) (nodeName : String) : Int64HashRing :=
  { h with
    nodes := h.nodes.foldl
      (fun filtered n => if n.nodeName ≠ nodeName then filtered ++ [n] else filtered) [] }

/-- The Go conversion `uint64(x)` of an `int64` value: reduce modulo `2^64`. -/
def uint64OfInt64 (x : Int) : Nat := (x % (2 ^ 64 : Int)).toNat

/-- Two's-complement `int64` negation `-x`: negate and wrap into
`[-2^63, 2^63)`. -/
def int64Neg (x : Int) : Int := ((-x) + 2 ^ 63) % 2 ^ 64 - 2 ^ 63

/-- The search target of `Int64HashRing.GetNode`:
`uint64(key)` when `key >= 0`, else `uint64(-key)`. -/
def int64Target (key : Int) : Nat :=
  if 0 ≤ key then uint64OfInt64 key else uint64OfInt64 (int64Neg key)

/-- `Int64HashRing.GetNode(key)`: empty ring gives `("", false)`; otherwise
use the raw absolute value of the key as the search target (no hashing) and
binary-search with wrap-around, leaving the ring state unchanged. -/
def Int64HashRing.GetNode (h : Int64HashRing) (key : Int) :
    (String × Bool) × Int64HashRing :=
  if h.nodes.length = 0 then (("", false), h)
  else
    let targetHash := int64Target key
    let idx := sortSearch (fun i => (h.nodes.getD i default).hash ≥ targetHash)
      h.nodes.length
    let idx2 := if idx = h.nodes.length then 0 else idx
    (((h.nodes.getD idx2 default).nodeName, true), h)

/-- `Int64HashRing.Len()`, with the (unchanged) ring state. -/
def Int64HashRing.Len (h : Int64HashRing) : Nat × Int64HashRing := (h.nodes.length, h)

/-- States of the string-keyed ring reachable from a freshly constructed ring
by completed `AddNode` / `RemoveNode` calls (an `AddNode` call contributes its
post-state whether it succeeded or returned an error). -/
inductive Reachable (H : Hasher) : HashRing → Prop
  | new (virtualSpots : Int) : Reachable H (NewRing virtualSpots)
  | addStep (s : HashRing) (name : String) :
      Reachable H s → Reachable H (HashRing.AddNode H s name).2
  | removeStep (s : HashRing) (name : String) :
      Reachable H s → Reachable H (HashRing.RemoveNode s name)

/-- States of the int64-keyed ring reachable from a freshly constructed ring
by completed `AddNode` / `RemoveNode` calls. -/
inductive Int64Reachable (H : Hasher) : Int64HashRing → Prop
  | new (virtualSpots : Int) : Int64Reachable H (NewInt64Ring virtualSpots)
  | addStep (s : Int64HashRing) (name : String) :
      Int64Reachable H s → Int64Reachable H (Int64HashRing.AddNode H s name).2
  | removeStep (s : Int64HashRing) (name : String) :
      Int64Reachable H s → Int64Reachable H (Int64HashRing.RemoveNode s name)

/-- A concrete, always-succeeding hash provider used to instantiate the
theorems on concrete rings: the digest is the sum of the character codes. -/
def testHasher : Hasher :=
  { digest := fun s => s.data.foldl (fun a c => a + c.toNat) 0,
    writeErr := fun _ => none }

/-- A hash provider whose `Write` always fails. -/
def errHasher : Hasher :=
  { digest := fun _ => 0, writeErr := fun _ => some "boom" }

/-- A hash provider whose digest is the constant `2^32`, whose high and low
32-bit halves differ. -/
def cHasher : Hasher :=
  { digest := fun _ => 2 ^ 32, writeErr := fun _ => none }

/-- A small concrete string-keyed ring: one node added with one virtual spot. -/
def testRing : HashRing := (HashRing.AddNode testHasher (NewRing 1) "a").2

/-- A concrete string-keyed ring with two virtual spots per node. -/
def testRing2 : HashRing := (HashRing.AddNode testHasher (NewRing 2) "a").2

/-- A small concrete int64-keyed ring: one node, one virtual spot. -/
def int64TestRing : Int64HashRing :=
  (Int64HashRing.AddNode testHasher (NewInt64Ring 1) "a").2

/-! ### Helper lemmas -/

/-- The in-place filter loop of `RemoveNode` computes `List.filter`. -/
theorem foldl_filter_eq {α : Type} (p : α → Prop) [DecidablePred p] (l acc : List α) :
    l.foldl (fun filtered n => if p n then filtered ++ [n] else filtered) acc
      = acc ++ l.filter (fun n => p n) := by
  induction l generalizing acc with
  | nil => simp
  | cons x xs ih =>
    by_cases hx : p x
    · simp [List.foldl_cons, hx, ih]
    · simp [List.foldl_cons, hx, ih]

/-- `RemoveNode` on the string-keyed ring is the filter keeping other owners. -/
theorem RemoveNode_nodes (h : HashRing) (nodeName : String) :
    (h.RemoveNode nodeName).nodes
      = h.nodes.filter (fun n => n.nodeName ≠ nodeName) := by
  show h.nodes.foldl _ [] = _
  exact (foldl_filter_eq (fun n => n.nodeName ≠ nodeName) h.nodes []).trans
    (List.nil_append _)

/-- `RemoveNode` on the int64-keyed ring is the same filter. -/
theorem int64RemoveNode_nodes (h : Int64HashRing) (nodeName : String) :
    (h.RemoveNode nodeName).nodes
      = h.nodes.filter (fun n => n.nodeName ≠ nodeName) := by
  show h.nodes.foldl _ [] = _
  exact (foldl_filter_eq (fun n => n.nodeName ≠ nodeName) h.nodes []).trans
    (List.nil_append _)

/-- Reading the last four bytes of the big-endian serialisation of a 64-bit
digest as a big-endian 32-bit value yields the digest's low 32 bits. -/
theorem stringPosition_eq_mod (d : Nat) : stringPosition d = d % 2 ^ 32 := by
  show beUint32 (lastFour (sum64Bytes d)) = d % 2 ^ 32
  simp only [sum64Bytes, lastFour, beUint32, List.length_cons, List.length_nil,
    Nat.shiftRight_eq_div_pow]
  norm_num [List.drop]
  omega

/-- A successful `Write` returns the digest of the written string. -/
theorem Hasher.write_ok (H : Hasher) (s : String) (d : Nat)
    (h : H.write s = Except.ok d) : d = H.digest s := by
  unfold Hasher.write at h
  cases hw : H.writeErr s <;> rw [hw] at h <;> simp_all

/-- A successful generation run of the string-keyed ring produces, in replica
order, one node per index whose key is `name:i` and whose position is the
32-bit truncation of that key's digest. -/
theorem genNodes_ok (H : Hasher) (name : String) (l : List Nat) (ns : List ringNode)
    (h : genNodes H name l = Except.ok ns) :
    ns = l.map (fun i =>
      { nodeName := name, key := name ++ ":" ++ toString i,
        hash := stringPosition (H.digest (name ++ ":" ++ toString i)) }) := by
  induction l generalizing ns with
  | nil =>
    unfold genNodes at h
    cases h
    rfl
  | cons i rest ih =>
    simp only [genNodes] at h
    split at h
    · exact absurd h (by simp)
    · rename_i d hw
      split at h
      · exact absurd h (by simp)
      · rename_i ns0 hg
        cases h
        rw [Hasher.write_ok H _ d hw]
        simp [List.map_cons, ih ns0 hg, stringPosition]

/-- A successful generation run of the int64-keyed ring produces, in replica
order, one node per index carrying the full 64-bit digest of `name:i`. -/
theorem int64GenNodes_ok (H : Hasher) (name : String) (l : List Nat)
    (ns : List int64RingNode) (h : int64GenNodes H name l = Except.ok ns) :
    ns = l.map (fun i =>
      { nodeName := name, key := convertToInt64 (H.digest (name ++ ":" ++ toString i)),
        hash := H.digest (name ++ ":" ++ toString i) }) := by
  induction l generalizing ns with
  | nil =>
    unfold int64GenNodes at h
    cases h
    rfl
  | cons i rest ih =>
    simp only [int64GenNodes] at h
    split at h
    · exact absurd h (by simp)
    · rename_i d hw
      split at h
      · exact absurd h (by simp)
      · rename_i ns0 hg
        cases h
        rw [Hasher.write_ok H _ d hw]
        simp [List.map_cons, ih ns0 hg]

/-- Unfolding of one `sort.Search` loop iteration. -/
theorem sortSearchGo_succ (f : Nat → Bool) (n i j : Nat) :
    sortSearchGo f (n + 1) i j =
      if i < j then
        if f ((i + j) / 2) then sortSearchGo f n i ((i + j) / 2)
        else sortSearchGo f n ((i + j) / 2 + 1) j
      else i := by
  simp only [sortSearchGo]
  by_cases hlt : i < j
  · simp only [if_pos hlt]
    cases hfm : f ((i + j) / 2) <;> simp [hfm]
  · simp [hlt]

/-- Correctness of the `sort.Search` loop on a predicate monotone over the
searched interval: with enough fuel it returns the least index of the
interval where the predicate holds (or the interval's upper end when the
predicate holds nowhere): the predicate is false strictly below the result
and true from the result up to the upper end. -/
theorem sortSearchGo_spec (f : Nat → Bool) :
    ∀ (fuel i j : Nat), i ≤ j → j - i ≤ fuel →
      (∀ k l, i ≤ k → k ≤ l → l < j → f k = true → f l = true) →
      i ≤ sortSearchGo f fuel i j ∧ sortSearchGo f fuel i j ≤ j ∧
      (∀ k, i ≤ k → k < sortSearchGo f fuel i j → f k = false) ∧
      (∀ k, sortSearchGo f fuel i j ≤ k → k < j → f k = true) := by
  intro fuel
  induction fuel with
  | zero =>
    intro i j hij hfuel _
    have hji : i = j := by omega
    subst hji
    exact ⟨Nat.le_refl _, Nat.le_refl _,
      fun k h1 h2 => absurd (Nat.lt_of_le_of_lt h1 h2) (Nat.lt_irrefl i),
      fun k h1 h2 => absurd (Nat.lt_of_le_of_lt h1 h2) (Nat.lt_irrefl i)⟩
  | succ n ih =>
    intro i j hij hfuel mono
    rw [sortSearchGo_succ]
    by_cases hlt : i < j
    · rw [if_pos hlt]
      have hm1 : i ≤ (i + j) / 2 := by omega
      have hm2 : (i + j) / 2 < j := by omega
      cases hfm : f ((i + j) / 2) with
      | false =>
        rw [if_neg Bool.false_ne_true]
        obtain ⟨h1, h2, h3, h4⟩ := ih ((i + j) / 2 + 1) j (by omega) (by omega)
          (fun k l hk hkl hl hfk => mono k l (by omega) hkl hl hfk)
        refine ⟨by omega, h2, ?_, h4⟩
        intro k hk hkr
        by_cases hkm : k ≤ (i + j) / 2
        · cases hfk : f k with
          | false => rfl
          | true => exact absurd (mono k ((i + j) / 2) hk hkm hm2 hfk) (by simp [hfm])
        · exact h3 k (by omega) hkr
      | true =>
        rw [if_pos rfl]
        obtain ⟨h1, h2, h3, h4⟩ := ih i ((i + j) / 2) (by omega) (by omega)
          (fun k l hk hkl hl hfk => mono k l hk hkl (by omega) hfk)
        refine ⟨h1, by omega, h3, ?_⟩
        intro k hrk hkj
        by_cases hkm : k < (i + j) / 2
        · exact h4 k hrk hkm
        · exact mono ((i + j) / 2) k hm1 (by omega) hkj hfm
    · rw [if_neg hlt]
      exact ⟨Nat.le_refl _, hij,
        fun k h1 h2 => absurd (Nat.lt_of_le_of_lt h1 h2) (Nat.lt_irrefl i),
        fun k h1 h2 => absurd (Nat.lt_of_lt_of_le h2 (by omega)) (Nat.lt_irrefl k)⟩

/-- `sort.Search(n, f)` on a predicate monotone over `[0, n)`: the result is
at most `n`, the predicate is false below it and true from it up to `n`. -/
theorem sortSearch_spec (f : Nat → Bool) (n : Nat)
    (mono : ∀ k l, k ≤ l → l < n → f k = true → f l = true) :
    sortSearch f n ≤ n ∧
    (∀ k, k < sortSearch f n → f k = false) ∧
    (∀ k, sortSearch f n ≤ k → k < n → f k = true) := by
  obtain ⟨_, h2, h3, h4⟩ := sortSearchGo_spec f n 0 n (Nat.zero_le n) (by omega)
    (fun k l _ hkl hl hfk => mono k l hkl hl hfk)
  exact ⟨h2, fun k hk => h3 k (Nat.zero_le k) hk, h4⟩

/-- On a sorted node sequence, positions read through `getD` are monotone in
the index over the in-range part. -/
theorem getD_mono_of_pairwise {α : Type} [Inhabited α] (nodes : List α)
    (hashOf : α → Nat) (hs : nodes.Pairwise (fun a b => hashOf a ≤ hashOf b)) :
    ∀ k l, k ≤ l → l < nodes.length →
      hashOf (nodes.getD k default) ≤ hashOf (nodes.getD l default) := by
  intro k l hkl hl
  rcases Nat.eq_or_lt_of_le hkl with rfl | hlt
  · exact Nat.le_refl _
  · rw [List.getD_eq_getElem _ _ (by omega), List.getD_eq_getElem _ _ hl]
    exact List.pairwise_iff_getElem.mp hs k l (by omega) hl hlt

/-- Behaviour of the shared lookup step of both ring variants on a sorted
node sequence: the index selected by `sort.Search` plus the wrap-around
adjustment is either the first index whose position is at least the target,
or 0 when the target exceeds every position (in which case the raw search
result equals the length). -/
theorem ringSearch_char {α : Type} [Inhabited α] (nodes : List α)
    (hashOf : α → Nat) (t : Nat)
    (hs : nodes.Pairwise (fun a b => hashOf a ≤ hashOf b)) :
    (∃ i, i < nodes.length ∧
      (∀ k, k < i → hashOf (nodes.getD k default) < t) ∧
      t ≤ hashOf (nodes.getD i default) ∧
      (if sortSearch (fun i => hashOf (nodes.getD i default) ≥ t) nodes.length
            = nodes.length then 0
        else sortSearch (fun i => hashOf (nodes.getD i default) ≥ t) nodes.length) = i)
    ∨ ((∀ k, k < nodes.length → hashOf (nodes.getD k default) < t) ∧
      (if sortSearch (fun i => hashOf (nodes.getD i default) ≥ t) nodes.length
            = nodes.length then 0
        else sortSearch (fun i => hashOf (nodes.getD i default) ≥ t) nodes.length) = 0
      ∧ sortSearch (fun i => hashOf (nodes.getD i default) ≥ t) nodes.length
          = nodes.length) := by
  have mono : ∀ k l, k ≤ l → l < nodes.length →
      (decide (hashOf (nodes.getD k default) ≥ t)) = true →
      (decide (hashOf (nodes.getD l default) ≥ t)) = true := by
    intro k l hkl hl hfk
    simp only [ge_iff_le, decide_eq_true_eq] at hfk ⊢
    exact Nat.le_trans hfk (getD_mono_of_pairwise nodes hashOf hs k l hkl hl)
  obtain ⟨hle, hlo, hhi⟩ :=
    sortSearch_spec (fun i => hashOf (nodes.getD i default) ≥ t) nodes.length mono
  by_cases hidx : sortSearch (fun i => hashOf (nodes.getD i default) ≥ t)
      nodes.length = nodes.length
  · right
    refine ⟨?_, by rw [if_pos hidx], hidx⟩
    intro k hk
    have hf := hlo k (by rw [hidx]; exact hk)
    simp only [ge_iff_le, decide_eq_false_iff_not, Nat.not_le] at hf
    exact hf
  · left
    refine ⟨sortSearch (fun i => hashOf (nodes.getD i default) ≥ t) nodes.length,
      Nat.lt_of_le_of_ne hle hidx, ?_, ?_, by rw [if_neg hidx]⟩
    · intro k hk
      have hf := hlo k hk
      simp only [ge_iff_le, decide_eq_false_iff_not, Nat.not_le] at hf
      exact hf
    · have hf := hhi _ (Nat.le_refl _) (Nat.lt_of_le_of_ne hle hidx)
      simp only [ge_iff_le, decide_eq_true_eq] at hf
      exact hf

/-- Case analysis of `HashRing.AddNode`: either generation fails and the call
returns the error with the ring untouched, or it succeeds and the call
appends the generated batch and re-sorts. -/
theorem AddNode_eq (H : Hasher) (h : HashRing) (name : String) :
    (∃ e, genNodes H name (List.range h.virtualSpots) = Except.error e ∧
       h.AddNode H name = (Except.error e, h))
    ∨ (∃ ns, genNodes H name (List.range h.virtualSpots) = Except.ok ns ∧
       h.AddNode H name = (Except.ok (),
         { h with nodes := List.insertionSort nodeLE (h.nodes ++ ns) })) := by
  unfold HashRing.AddNode
  cases hg : genNodes H name (List.range h.virtualSpots) with
  | error e => exact Or.inl ⟨e, rfl, rfl⟩
  | ok ns => exact Or.inr ⟨ns, rfl, rfl⟩

/-- Case analysis of `Int64HashRing.AddNode`. -/
theorem int64AddNode_eq (H : Hasher) (h : Int64HashRing) (name : String) :
    (∃ e, int64GenNodes H name (List.range h.virtualSpots) = Except.error e ∧
       h.AddNode H name = (Except.error e, h))
    ∨ (∃ ns, int64GenNodes H name (List.range h.virtualSpots) = Except.ok ns ∧
       h.AddNode H name = (Except.ok (),
         { h with nodes := List.insertionSort int64NodeLE (h.nodes ++ ns) })) := by
  unfold Int64HashRing.AddNode
  cases hg : int64GenNodes H name (List.range h.virtualSpots) with
  | error e => exact Or.inl ⟨e, rfl, rfl⟩
  | ok ns => exact Or.inr ⟨ns, rfl, rfl⟩

/-- The node sequence left by any completed `HashRing.AddNode` call is sorted
when the previous sequence was (trivially so on the error path). -/
theorem AddNode_pairwise (H : Hasher) (h : HashRing) (name : String)
    (hs : h.nodes.Pairwise nodeLE) :
    (h.AddNode H name).2.nodes.Pairwise nodeLE := by
  rcases AddNode_eq H h name with ⟨e, _, heq⟩ | ⟨ns, _, heq⟩
  · rw [heq]; exact hs
  · rw [heq]; exact List.sorted_insertionSort nodeLE (h.nodes ++ ns)

/-- The int64 analogue of `AddNode_pairwise`. -/
theorem int64AddNode_pairwise (H : Hasher) (h : Int64HashRing) (name : String)
    (hs : h.nodes.Pairwise int64NodeLE) :
    (h.AddNode H name).2.nodes.Pairwise int64NodeLE := by
  rcases int64AddNode_eq H h name with ⟨e, _, heq⟩ | ⟨ns, _, heq⟩
  · rw [heq]; exact hs
  · rw [heq]; exact List.sorted_insertionSort int64NodeLE (h.nodes ++ ns)

/-- `RemoveNode` preserves sortedness: filtering keeps survivors in order. -/
theorem RemoveNode_pairwise (h : HashRing) (name : String)
    (hs : h.nodes.Pairwise nodeLE) :
    (h.RemoveNode name).nodes.Pairwise nodeLE := by
  rw [RemoveNode_nodes]
  exact hs.filter _

/-- The int64 analogue of `RemoveNode_pairwise`. -/
theorem int64RemoveNode_pairwise (h : Int64HashRing) (name : String)
    (hs : h.nodes.Pairwise int64NodeLE) :
    (h.RemoveNode name).nodes.Pairwise int64NodeLE := by
  rw [int64RemoveNode_nodes]
  exact hs.filter _

/-- A successful generation run yields one node per replica index. -/
theorem genNodes_ok_length (H : Hasher) (name : String) (l : List Nat)
    (ns : List ringNode) (h : genNodes H name l = Except.ok ns) :
    ns.length = l.length := by
  rw [genNodes_ok H name l ns h, List.length_map]

/-- The int64 analogue of `genNodes_ok_length`. -/
theorem int64GenNodes_ok_length (H : Hasher) (name : String) (l : List Nat)
    (ns : List int64RingNode) (h : int64GenNodes H name l = Except.ok ns) :
    ns.length = l.length := by
  rw [int64GenNodes_ok H name l ns h, List.length_map]

/-- A successful `HashRing.AddNode` keeps `virtualSpots` and grows the node
count by exactly `virtualSpots`. -/
theorem AddNode_ok_state (H : Hasher) (h : HashRing) (name : String)
    (hok : (h.AddNode H name).1 = Except.ok ()) :
    (h.AddNode H name).2.virtualSpots = h.virtualSpots ∧
    ((h.AddNode H name).2.Len).1 = (h.Len).1 + h.virtualSpots := by
  rcases AddNode_eq H h name with ⟨e, _, heq⟩ | ⟨ns, hg, heq⟩
  · rw [heq] at hok; exact absurd hok (by simp)
  · rw [heq]
    refine ⟨rfl, ?_⟩
    show (List.insertionSort nodeLE (h.nodes ++ ns)).length = h.nodes.length + _
    rw [(List.perm_insertionSort nodeLE _).length_eq, List.length_append,
      genNodes_ok_length H name _ ns hg, List.length_range]

/-- The int64 analogue of `AddNode_ok_state`. -/
theorem int64AddNode_ok_state (H : Hasher) (h : Int64HashRing) (name : String)
    (hok : (h.AddNode H name).1 = Except.ok ()) :
    (h.AddNode H name).2.virtualSpots = h.virtualSpots ∧
    ((h.AddNode H name).2.Len).1 = (h.Len).1 + h.virtualSpots := by
  rcases int64AddNode_eq H h name with ⟨e, _, heq⟩ | ⟨ns, hg, heq⟩
  · rw [heq] at hok; exact absurd hok (by simp)
  · rw [heq]
    refine ⟨rfl, ?_⟩
    show (List.insertionSort int64NodeLE (h.nodes ++ ns)).length = h.nodes.length + _
    rw [(List.perm_insertionSort int64NodeLE _).length_eq, List.length_append,
      int64GenNodes_ok_length H name _ ns hg, List.length_range]

/-- `HashRing.GetNode` leaves the ring state unchanged. -/
theorem GetNode_snd (H : Hasher) (h : HashRing) (key : String) :
    (HashRing.GetNode H h key).2 = h := by
  unfold HashRing.GetNode
  by_cases hl : h.nodes.length = 0 <;> simp [hl]

/-- `Int64HashRing.GetNode` leaves the ring state unchanged. -/
theorem int64GetNode_snd (h : Int64HashRing) (key : Int) :
    (Int64HashRing.GetNode h key).2 = h := by
  unfold Int64HashRing.GetNode
  by_cases hl : h.nodes.length = 0 <;> simp [hl]

/-- Length of the survivors of a negated filter: the original length minus
the number of elements satisfying the predicate. -/
theorem filter_not_length {α : Type} (p : α → Prop) [DecidablePred p] (l : List α) :
    (l.filter (fun a => ¬ p a)).length = l.length - l.countP (fun a => p a) := by
  induction l with
  | nil => rfl
  | cons x xs ih =>
    have hc : xs.countP (fun a => p a) ≤ xs.length := List.countP_le_length _
    by_cases hx : p x
    · rw [List.filter_cons, if_neg (by simp [hx]), List.countP_cons,
        if_pos (by simp [hx]), List.length_cons]
      omega
    · rw [List.filter_cons, if_pos (by simp [hx]), List.countP_cons,
        if_neg (by simp [hx]), List.length_cons, List.length_cons]
      omega

/-! ### Claim theorems -/

/-- C2: for both ring variants, if AddNode returns an error (a digest write
failure on some replica index), the ring's node sequence, its `Len()` and in
fact its whole observable state are exactly as before the call: no virtual
node of the failed batch is inserted. -/
theorem AddNode_error_atomic :
    (∀ (H : Hasher) (h : HashRing) (name e : String),
      (h.AddNode H name).1 = Except.error e →
      (h.AddNode H name).2.nodes = h.nodes ∧
      ((h.AddNode H name).2.Len).1 = (h.Len).1 ∧
      (h.AddNode H name).2 = h)
    ∧ (∀ (H : Hasher) (h : Int64HashRing) (name e : String),
      (h.AddNode H name).1 = Except.error e →
      (h.AddNode H name).2.nodes = h.nodes ∧
      ((h.AddNode H name).2.Len).1 = (h.Len).1 ∧
      (h.AddNode H name).2 = h) := by
  constructor
  · intro H h name e herr
    rcases AddNode_eq H h name with ⟨e2, _, heq⟩ | ⟨ns, _, heq⟩
    · rw [heq]
      exact ⟨rfl, rfl, rfl⟩
    · rw [heq] at herr
      exact absurd herr (by simp)
  · intro H h name e herr
    rcases int64AddNode_eq H h name with ⟨e2, _, heq⟩ | ⟨ns, _, heq⟩
    · rw [heq]
      exact ⟨rfl, rfl, rfl⟩
    · rw [heq] at herr
      exact absurd herr (by simp)

/-- Witness for C2: a provider whose Write always fails leaves concrete rings
of both variants untouched. -/
theorem AddNode_error_atomic_witness :
    (HashRing.AddNode errHasher (NewRing 2) "x").2 = NewRing 2 ∧
    (Int64HashRing.AddNode errHasher (NewInt64Ring 2) "x").2 = NewInt64Ring 2 :=
  ⟨(AddNode_error_atomic.1 errHasher (NewRing 2) "x"
      "write to hasher failed: boom" (by rfl)).2.2,
   (AddNode_error_atomic.2 errHasher (NewInt64Ring 2) "x"
      "write to hasher failed: boom" (by rfl)).2.2⟩

/-- C4: for both ring variants, every ring state reachable from a fresh ring
by completed AddNode / RemoveNode calls has its virtual-node sequence sorted
ascending by position. -/
theorem reachable_sorted :
    (∀ (H : Hasher) (s : HashRing), Reachable H s → s.nodes.Pairwise nodeLE)
    ∧ (∀ (H : Hasher) (s : Int64HashRing),
        Int64Reachable H s → s.nodes.Pairwise int64NodeLE) := by
  constructor
  · intro H s hr
    induction hr with
    | new v => exact List.Pairwise.nil
    | addStep s name _ ih => exact AddNode_pairwise H s name ih
    | removeStep s name _ ih => exact RemoveNode_pairwise s name ih
  · intro H s hr
    induction hr with
    | new v => exact List.Pairwise.nil
    | addStep s name _ ih => exact int64AddNode_pairwise H s name ih
    | removeStep s name _ ih => exact int64RemoveNode_pairwise s name ih

/-- Witness for C4: concrete one-spot rings built by a completed AddNode call
are sorted. -/
theorem reachable_sorted_witness :
    testRing.nodes.Pairwise nodeLE ∧ int64TestRing.nodes.Pairwise int64NodeLE :=
  ⟨reachable_sorted.1 testHasher testRing
      (Reachable.addStep (NewRing 1) "a" (Reachable.new 1)),
   reachable_sorted.2 testHasher int64TestRing
      (Int64Reachable.addStep (NewInt64Ring 1) "a" (Int64Reachable.new 1))⟩

/-- C9: for a fixed topology GetNode is deterministic: a second call on the
state left behind by a first call returns the same (owner, found) pair and
the same state, for both ring variants. -/
theorem GetNode_deterministic :
    (∀ (H : Hasher) (h : HashRing) (key : String),
      HashRing.GetNode H (HashRing.GetNode H h key).2 key = HashRing.GetNode H h key)
    ∧ (∀ (h : Int64HashRing) (key : Int),
      Int64HashRing.GetNode (Int64HashRing.GetNode h key).2 key
        = Int64HashRing.GetNode h key) :=
  ⟨fun H h key => by rw [GetNode_snd],
   fun h key => by rw [int64GetNode_snd]⟩

/-- C10: GetNode and Len never modify the ring's observable state (node
sequence and virtualSpots), in either ring variant. -/
theorem GetNode_Len_frame :
    (∀ (H : Hasher) (h : HashRing) (key : String),
      (HashRing.GetNode H h key).2 = h ∧ (HashRing.Len h).2 = h)
    ∧ (∀ (h : Int64HashRing) (key : Int),
      (Int64HashRing.GetNode h key).2 = h ∧ (Int64HashRing.Len h).2 = h) :=
  ⟨fun H h key => ⟨GetNode_snd H h key, rfl⟩,
   fun h key => ⟨int64GetNode_snd h key, rfl⟩⟩

/-- C5: for both ring variants and any key, GetNode returns `("", false)`
exactly on the empty ring (`Len() == 0`); on any non-empty ring it returns
some owner name together with `found = true`. -/
theorem GetNode_empty_iff :
    (∀ (H : Hasher) (h : HashRing) (key : String),
      ((HashRing.GetNode H h key).1.2 = false ↔ (HashRing.Len h).1 = 0) ∧
      (h.nodes = [] → (HashRing.GetNode H h key).1 = ("", false)) ∧
      (h.nodes ≠ [] → ∃ nm, (HashRing.GetNode H h key).1 = (nm, true)))
    ∧ (∀ (h : Int64HashRing) (key : Int),
      ((Int64HashRing.GetNode h key).1.2 = false ↔ (Int64HashRing.Len h).1 = 0) ∧
      (h.nodes = [] → (Int64HashRing.GetNode h key).1 = ("", false)) ∧
      (h.nodes ≠ [] → ∃ nm, (Int64HashRing.GetNode h key).1 = (nm, true))) := by
  constructor
  · intro H h key
    by_cases hl : h.nodes.length = 0
    · have hnil : h.nodes = [] := List.length_eq_zero.mp hl
      exact ⟨by simp [HashRing.GetNode, HashRing.Len, hl],
        fun _ => by simp [HashRing.GetNode, hl],
        fun hne => absurd hnil hne⟩
    · refine ⟨by simp [HashRing.GetNode, HashRing.Len, hl],
        fun hnil => absurd (by simp [hnil]) hl, fun _ => ?_⟩
      have h2 : (HashRing.GetNode H h key).1.2 = true := by
        simp [HashRing.GetNode, hl]
      exact ⟨(HashRing.GetNode H h key).1.1, Prod.ext rfl h2⟩
  · intro h key
    by_cases hl : h.nodes.length = 0
    · have hnil : h.nodes = [] := List.length_eq_zero.mp hl
      exact ⟨by simp [Int64HashRing.GetNode, Int64HashRing.Len, hl],
        fun _ => by simp [Int64HashRing.GetNode, hl],
        fun hne => absurd hnil hne⟩
    · refine ⟨by simp [Int64HashRing.GetNode, Int64HashRing.Len, hl],
        fun hnil => absurd (by simp [hnil]) hl, fun _ => ?_⟩
      have h2 : (Int64HashRing.GetNode h key).1.2 = true := by
        simp [Int64HashRing.GetNode, hl]
      exact ⟨(Int64HashRing.GetNode h key).1.1, Prod.ext rfl h2⟩

/-- Witness for C5: the fresh ring answers `("", false)`, and on a concrete
non-empty ring `found` is not false. -/
theorem GetNode_empty_iff_witness :
    (HashRing.GetNode testHasher (NewRing 1) "k").1 = ("", false) ∧
    (Int64HashRing.GetNode (NewInt64Ring 1) 9).1 = ("", false) ∧
    ((HashRing.GetNode testHasher testRing "k").1.2 = false ↔
      (HashRing.Len testRing).1 = 0) :=
  ⟨(GetNode_empty_iff.1 testHasher (NewRing 1) "k").2.1 rfl,
   (GetNode_empty_iff.2 (NewInt64Ring 1) 9).2.1 rfl,
   (GetNode_empty_iff.1 testHasher testRing "k").1⟩

/-- C6: for both ring variants a successful AddNode grows `Len()` by exactly
`virtualSpots`, and re-adding the same name is additive: two successful calls
grow `Len()` by `2 * virtualSpots`. -/
theorem AddNode_len_additive :
    (∀ (H : Hasher) (h : HashRing) (name : String),
      ((h.AddNode H name).1 = Except.ok () →
        ((h.AddNode H name).2.Len).1 = (h.Len).1 + h.virtualSpots) ∧
      ((h.AddNode H name).1 = Except.ok () →
        ((h.AddNode H name).2.AddNode H name).1 = Except.ok () →
        (((h.AddNode H name).2.AddNode H name).2.Len).1
          = (h.Len).1 + 2 * h.virtualSpots))
    ∧ (∀ (H : Hasher) (h : Int64HashRing) (name : String),
      ((h.AddNode H name).1 = Except.ok () →
        ((h.AddNode H name).2.Len).1 = (h.Len).1 + h.virtualSpots) ∧
      ((h.AddNode H name).1 = Except.ok () →
        ((h.AddNode H name).2.AddNode H name).1 = Except.ok () →
        (((h.AddNode H name).2.AddNode H name).2.Len).1
          = (h.Len).1 + 2 * h.virtualSpots)) := by
  constructor
  · intro H h name
    refine ⟨fun hok => (AddNode_ok_state H h name hok).2, fun hok1 hok2 => ?_⟩
    obtain ⟨hv1, hl1⟩ := AddNode_ok_state H h name hok1
    obtain ⟨_, hl2⟩ := AddNode_ok_state H (h.AddNode H name).2 name hok2
    rw [hl2, hl1, hv1]
    ring
  · intro H h name
    refine ⟨fun hok => (int64AddNode_ok_state H h name hok).2, fun hok1 hok2 => ?_⟩
    obtain ⟨hv1, hl1⟩ := int64AddNode_ok_state H h name hok1
    obtain ⟨_, hl2⟩ := int64AddNode_ok_state H (h.AddNode H name).2 name hok2
    rw [hl2, hl1, hv1]
    ring

/-- Witness for C6: adding the same name twice to fresh one-spot rings yields
length 2 = 0 + 2·1. -/
theorem AddNode_len_additive_witness :
    ((HashRing.AddNode testHasher testRing "a").2.Len).1
      = ((NewRing 1).Len).1 + 2 * (NewRing 1).virtualSpots ∧
    ((Int64HashRing.AddNode testHasher int64TestRing "a").2.Len).1
      = ((NewInt64Ring 1).Len).1 + 2 * (NewInt64Ring 1).virtualSpots :=
  ⟨(AddNode_len_additive.1 testHasher (NewRing 1) "a").2 (by rfl) (by rfl),
   (AddNode_len_additive.2 testHasher (NewInt64Ring 1) "a").2 (by rfl) (by rfl)⟩

/-- C7: for both ring variants RemoveNode removes exactly the virtual nodes
owned by the given name (a filter, so survivors keep their relative order),
`Len()` drops by the number of matching nodes, and removing an absent name is
a no-op. -/
theorem RemoveNode_filter_spec :
    (∀ (h : HashRing) (name : String),
      (h.RemoveNode name).nodes = h.nodes.filter (fun n => n.nodeName ≠ name) ∧
      ((h.RemoveNode name).Len).1
        = (h.Len).1 - h.nodes.countP (fun n => n.nodeName = name) ∧
      ((∀ n ∈ h.nodes, n.nodeName ≠ name) → h.RemoveNode name = h))
    ∧ (∀ (h : Int64HashRing) (name : String),
      (h.RemoveNode name).nodes = h.nodes.filter (fun n => n.nodeName ≠ name) ∧
      ((h.RemoveNode name).Len).1
        = (h.Len).1 - h.nodes.countP (fun n => n.nodeName = name) ∧
      ((∀ n ∈ h.nodes, n.nodeName ≠ name) → h.RemoveNode name = h)) := by
  constructor
  · intro h name
    refine ⟨RemoveNode_nodes h name, ?_, ?_⟩
    · show (h.RemoveNode name).nodes.length = _
      rw [RemoveNode_nodes]
      exact filter_not_length (fun n => n.nodeName = name) h.nodes
    · intro hall
      have hn : (h.RemoveNode name).nodes = h.nodes := by
        rw [RemoveNode_nodes]
        exact List.filter_eq_self.mpr (fun a ha => by simpa using hall a ha)
      calc h.RemoveNode name
          = HashRing.mk h.virtualSpots (h.RemoveNode name).nodes := rfl
        _ = HashRing.mk h.virtualSpots h.nodes := by rw [hn]
        _ = h := rfl
  · intro h name
    refine ⟨int64RemoveNode_nodes h name, ?_, ?_⟩
    · show (h.RemoveNode name).nodes.length = _
      rw [int64RemoveNode_nodes]
      exact filter_not_length (fun n => n.nodeName = name) h.nodes
    · intro hall
      have hn : (h.RemoveNode name).nodes = h.nodes := by
        rw [int64RemoveNode_nodes]
        exact List.filter_eq_self.mpr (fun a ha => by simpa using hall a ha)
      calc h.RemoveNode name
          = Int64HashRing.mk h.virtualSpots (h.RemoveNode name).nodes := rfl
        _ = Int64HashRing.mk h.virtualSpots h.nodes := by rw [hn]
        _ = h := rfl

/-- Witness for C7: removing an absent owner from concrete rings changes
nothing. -/
theorem RemoveNode_filter_spec_witness :
    HashRing.RemoveNode testRing2 "b" = testRing2 ∧
    Int64HashRing.RemoveNode int64TestRing "b" = int64TestRing :=
  ⟨(RemoveNode_filter_spec.1 testRing2 "b").2.2 (by decide),
   (RemoveNode_filter_spec.2 int64TestRing "b").2.2 (by decide)⟩

/-- C1 (counterexample): the string-keyed ring's virtual-node position is not
the high-order 32 bits of the 64-bit digest: with a provider whose digest is
the constant `2^32`, adding one node with one virtual spot succeeds and
stores position `0` (the digest's low 32 bits), not `2^32 >>> 32 = 1`. -/
theorem AddNode_high32_counterexample :
    (HashRing.AddNode cHasher (NewRing 1) "a").1 = Except.ok () ∧
    ¬ ((HashRing.AddNode cHasher (NewRing 1) "a").2.nodes.map ringNode.hash
        = [cHasher.digest ("a" ++ ":" ++ toString 0) >>> 32]) ∧
    (HashRing.AddNode cHasher (NewRing 1) "a").2.nodes.map ringNode.hash = [0] ∧
    cHasher.digest ("a" ++ ":" ++ toString 0) >>> 32 = 1 := by
  refine ⟨by rfl, by decide, by decide, by decide⟩

/-- C1 (amended): every virtual-node position generated by a successful
`HashRing.AddNode(name)` for replica index `i` in `[0, virtualSpots)` equals
the low-order 32 bits of the 64-bit digest of `name + ":" + i`; the resulting
sequence is a permutation of the old nodes plus that batch. -/
theorem AddNode_positions_low32 (H : Hasher) (h : HashRing) (name : String)
    (hok : (h.AddNode H name).1 = Except.ok ()) :
    (h.AddNode H name).2.nodes.Perm
      (h.nodes ++ (List.range h.virtualSpots).map (fun i =>
        { nodeName := name, key := name ++ ":" ++ toString i,
          hash := H.digest (name ++ ":" ++ toString i) % 2 ^ 32 })) := by
  rcases AddNode_eq H h name with ⟨e, _, heq⟩ | ⟨ns, hg, heq⟩
  · rw [heq] at hok
    exact absurd hok (by simp)
  · rw [heq]
    have hns := genNodes_ok H name _ ns hg
    simp only [stringPosition_eq_mod] at hns
    show (List.insertionSort nodeLE (h.nodes ++ ns)).Perm _
    rw [hns]
    exact List.perm_insertionSort nodeLE _

/-- Witness for the amended C1 on a concrete one-spot ring. -/
theorem AddNode_positions_low32_witness :
    (HashRing.AddNode testHasher (NewRing 1) "a").2.nodes.Perm
      ((NewRing 1).nodes ++ (List.range (NewRing 1).virtualSpots).map (fun i =>
        { nodeName := "a", key := "a" ++ ":" ++ toString i,
          hash := testHasher.digest ("a" ++ ":" ++ toString i) % 2 ^ 32 })) :=
  AddNode_positions_low32 testHasher (NewRing 1) "a" (by rfl)

/-- C3: for both ring variants, GetNode on a sorted, non-empty ring returns
with `found = true` the owner of the first virtual node (in ascending
position order) whose position is at least the target computed from the key,
and when the target exceeds every position it wraps around to the virtual
node at index 0. -/
theorem GetNode_first_at_or_above :
    (∀ (H : Hasher) (h : HashRing) (key : String),
      h.nodes.Pairwise nodeLE → h.nodes ≠ [] →
      (∃ i, i < h.nodes.length ∧
        (∀ k, k < i → (h.nodes.getD k default).hash < stringTarget H key) ∧
        stringTarget H key ≤ (h.nodes.getD i default).hash ∧
        (HashRing.GetNode H h key).1 = ((h.nodes.getD i default).nodeName, true))
      ∨ ((∀ k, k < h.nodes.length →
            (h.nodes.getD k default).hash < stringTarget H key) ∧
        (HashRing.GetNode H h key).1 = ((h.nodes.getD 0 default).nodeName, true)))
    ∧ (∀ (h : Int64HashRing) (key : Int),
      h.nodes.Pairwise int64NodeLE → h.nodes ≠ [] →
      (∃ i, i < h.nodes.length ∧
        (∀ k, k < i → (h.nodes.getD k default).hash < int64Target key) ∧
        int64Target key ≤ (h.nodes.getD i default).hash ∧
        (Int64HashRing.GetNode h key).1 = ((h.nodes.getD i default).nodeName, true))
      ∨ ((∀ k, k < h.nodes.length →
            (h.nodes.getD k default).hash < int64Target key) ∧
        (Int64HashRing.GetNode h key).1
          = ((h.nodes.getD 0 default).nodeName, true))) := by
  constructor
  · intro H h key hs hne
    have hl : ¬ (h.nodes.length = 0) := fun hh => hne (List.length_eq_zero.mp hh)
    rcases ringSearch_char h.nodes ringNode.hash (stringTarget H key) hs with
      ⟨i, hi, hlo, hhi, heq⟩ | ⟨hall, heq, _⟩
    · refine Or.inl ⟨i, hi, hlo, hhi, ?_⟩
      simp only [HashRing.GetNode, if_neg hl]
      rw [heq]
    · refine Or.inr ⟨hall, ?_⟩
      simp only [HashRing.GetNode, if_neg hl]
      rw [heq]
  · intro h key hs hne
    have hl : ¬ (h.nodes.length = 0) := fun hh => hne (List.length_eq_zero.mp hh)
    rcases ringSearch_char h.nodes int64RingNode.hash (int64Target key) hs with
      ⟨i, hi, hlo, hhi, heq⟩ | ⟨hall, heq, _⟩
    · refine Or.inl ⟨i, hi, hlo, hhi, ?_⟩
      simp only [Int64HashRing.GetNode, if_neg hl]
      rw [heq]
    · refine Or.inr ⟨hall, ?_⟩
      simp only [Int64HashRing.GetNode, if_neg hl]
      rw [heq]

/-- Witness for C3 on concrete rings: the string lookup lands on the single
virtual node, and an int64 key beyond every position wraps around to it. -/
theorem GetNode_first_at_or_above_witness :
    (HashRing.GetNode testHasher testRing "q").1 = ("a", true) ∧
    (Int64HashRing.GetNode int64TestRing (-300)).1 = ("a", true) := by
  constructor
  · have hlen : testRing.nodes.length = 1 := by decide
    rcases GetNode_first_at_or_above.1 testHasher testRing "q" (by decide)
        (by decide) with ⟨i, hi, _, _, heq⟩ | ⟨_, heq⟩
    · have hi0 : i = 0 := by omega
      subst hi0
      rw [heq]
      decide
    · rw [heq]
      decide
  · have hlen : int64TestRing.nodes.length = 1 := by decide
    rcases GetNode_first_at_or_above.2 int64TestRing (-300) (by decide)
        (by decide) with ⟨i, hi, _, _, heq⟩ | ⟨_, heq⟩
    · have hi0 : i = 0 := by omega
      subst hi0
      rw [heq]
      decide
    · rw [heq]
      decide

/-- C8: the int64-keyed ring's GetNode derives its search target directly
from the integer key without hashing: the target equals the absolute value of
the key (as the two branches `uint64(key)` / `uint64(-key)` compute it),
while the virtual-node positions produced by generation carry the full 64-bit
digests of the `name:index` strings. -/
theorem int64GetNode_raw_target :
    (∀ key : Int, -(2 ^ 63) ≤ key → key < 2 ^ 63 → int64Target key = key.natAbs)
    ∧ (∀ (H : Hasher) (name : String) (l : List Nat) (ns : List int64RingNode),
        int64GenNodes H name l = Except.ok ns →
        ns.map int64RingNode.hash
          = l.map (fun i => H.digest (name ++ ":" ++ toString i))) := by
  constructor
  · intro key h1 h2
    unfold int64Target uint64OfInt64 int64Neg
    by_cases h : 0 ≤ key <;> simp [h] <;> omega
  · intro H name l ns h
    rw [int64GenNodes_ok H name l ns h, List.map_map]
    rfl

/-- Witness for C8: concrete targets for a positive and a negative key, and a
concrete one-replica generation run carrying the full digest. -/
theorem int64GetNode_raw_target_witness :
    int64Target 7 = 7 ∧ int64Target (-5) = 5 ∧
    ([⟨"a", convertToInt64 (testHasher.digest "a:0"), testHasher.digest "a:0"⟩]
        : List int64RingNode).map int64RingNode.hash
      = [0].map (fun i => testHasher.digest ("a" ++ ":" ++ toString i)) :=
  ⟨int64GetNode_raw_target.1 7 (by decide) (by decide),
   int64GetNode_raw_target.1 (-5) (by decide) (by decide),
   int64GetNode_raw_target.2 testHasher "a" [0] _ (by rfl)⟩

end Consistenthash
